import Mathlib

set_option maxRecDepth 10000

/-! Verification development for the Mythril audio-graph compiler and
wavetable oscillator.  The definitions below are shallow embeddings of the
Rust sources: `polygraph/src/graph.rs` (key-based graph, scheduler and
buffer allocator), `polygraph/src/audio_graph/io.rs` (positional graph,
`remove_processor`), `mythril_osc/src/cluster.rs` and `mythril_osc/src/lib.rs`
(voice clusters, `move_state`, `active_voices`), `mythril_osc/src/voice.rs`
(`num_voices` derivation) and `mythril_osc/src/wavetable.rs` (resampler
index computation).  Hash maps and hash sets are modelled as association
lists and lists with a fixed (deterministic) iteration order; machine
integers are `Nat` with explicit `% 2 ^ 32` where u32 wrap-around matters;
Rust panics and potential non-termination are modelled with `Option`
(`none` = panic or fuel exhaustion). -/

/-- Association-list lookup (first matching key), models `HashMap::get`. -/
def alookup {κ β : Type} [DecidableEq κ] : List (κ × β) → κ → Option β
  | [], _ => none
  | (k, v) :: r, key => if k = key then some v else alookup r key

/-- Association-list update of the first matching entry (a `HashMap` has one
entry per key), models in-place mutation through `get_mut`. -/
def aupdate {κ β : Type} [DecidableEq κ] : List (κ × β) → κ → (β → β) → List (κ × β)
  | [], _, _ => []
  | (k, v) :: r, key, f => if k = key then (k, f v) :: r else (k, v) :: aupdate r key f

/-- Association-list removal of the first matching entry, models
`HashMap::remove`. -/
def aerase {κ β : Type} [DecidableEq κ] : List (κ × β) → κ → List (κ × β)
  | [], _ => []
  | (k, v) :: r, key => if k = key then r else (k, v) :: aerase r key

theorem alookup_aupdate_self {κ β : Type} [DecidableEq κ] (l : List (κ × β)) (k : κ)
    (f : β → β) : alookup (aupdate l k f) k = (alookup l k).map f := by
  induction l with
  | nil => simp [alookup, aupdate]
  | cons hd tl ih =>
    obtain ⟨a, b⟩ := hd
    by_cases h : a = k
    · simp [alookup, aupdate, h]
    · simp [alookup, aupdate, h, ih]

theorem alookup_aupdate_ne {κ β : Type} [DecidableEq κ] (l : List (κ × β)) (k k' : κ)
    (f : β → β) (h : k' ≠ k) : alookup (aupdate l k f) k' = alookup l k' := by
  induction l with
  | nil => simp [alookup, aupdate]
  | cons hd tl ih =>
    obtain ⟨a, b⟩ := hd
    by_cases ha : a = k
    · subst ha
      simp [alookup, aupdate, Ne.symm h]
    · by_cases hb : a = k'
      · simp [alookup, aupdate, ha, hb, h]
      · simp [alookup, aupdate, ha, hb, ih]

theorem aupdate_eq_self {κ β : Type} [DecidableEq κ] (l : List (κ × β)) (k : κ)
    (f : β → β) (h : ∀ v, alookup l k = some v → f v = v) : aupdate l k f = l := by
  induction l with
  | nil => simp [aupdate]
  | cons hd tl ih =>
    obtain ⟨a, b⟩ := hd
    by_cases ha : a = k
    · subst ha
      have hb : f b = b := h b (by simp [alookup])
      simp [aupdate, hb]
    · have : ∀ v, alookup tl k = some v → f v = v := by
        intro v hv
        exact h v (by simpa [alookup, ha] using hv)
      simp [aupdate, ha, ih this]

theorem mem_aerase {κ β : Type} [DecidableEq κ] (l : List (κ × β)) (k : κ) :
    ∀ pr ∈ aerase l k, pr ∈ l := by
  induction l with
  | nil => intro pr h; simp [aerase] at h
  | cons hd tl ih =>
    obtain ⟨a, b⟩ := hd
    intro pr h
    by_cases ha : a = k
    · simp only [aerase, if_pos ha] at h
      exact List.mem_cons_of_mem _ h
    · simp only [aerase, if_neg ha, List.mem_cons] at h
      rcases h with h | h
      · exact h ▸ List.mem_cons_self _ _
      · exact List.mem_cons_of_mem _ (ih pr h)

/-! ## The key-based graph of `polygraph/src/graph.rs`

`Port<NodeID, PortID>` is a map from target node to the set of target input
ports, `Node` has a set of backward (input) port ids and a map of forward
(output) ports, `AudioGraph` maps node ids to nodes.  `NodeID` and `PortID`
are instantiated with `Nat` (the source is generic; `insert_node_id` uses
`u64` keys). -/

structure GPort where
  conns : List (Nat × List Nat)
deriving DecidableEq

structure GNode where
  latency : Nat
  backward : List Nat
  forward : List (Nat × GPort)
deriving DecidableEq

structure AGraph where
  nodes : List (Nat × GNode)
deriving DecidableEq

def AGraph.getNode (g : AGraph) (id : Nat) : Option GNode := alookup g.nodes id

/-- All successor node ids of a node: `forward_ports().values()` then
`port.connections().keys()`, as iterated by `AudioGraph::is_connected`. -/
def GNode.succList (n : GNode) : List Nat :=
  n.forward.foldr (fun pr acc => pr.2.conns.map Prod.fst ++ acc) []

/-- Sequential combination of the recursive `is_connected` calls made by the
two nested `for` loops: the first `true` returns early, a `none`
(non-termination / panic) propagates, otherwise keep scanning. -/
def icFold (f : Nat → Option Bool) (ns : List Nat) : Option Bool :=
  ns.foldl
    (fun acc n =>
      match acc with
      | some false => f n
      | other => other)
    (some false)

/-- Models `AudioGraph::is_connected(from, to)`: `true` when `from == to`, otherwise
recurse through every connection of every forward port.  The Rust function
recurses without a visited set and so need not terminate on cyclic graphs;
`fuel` bounds the recursion depth and `none` models non-termination (or the
`unwrap` panic when a referenced node is missing). -/
def isConnected (g : AGraph) : Nat → Nat → Nat → Option Bool
  | 0, _, _ => none
  | fuel + 1, src, tgt =>
    if src = tgt then some true
    else
      match g.getNode src with
      | none => none
      | some node => icFold (fun n => isConnected g fuel n tgt) node.succList

/-- The forward (output) port `p.2` exists on node `p.1`:
`get_node(&from.0).and_then(|node| node.forward_ports().get(&from.1)).is_some()`. -/
def portExistsFwd (g : AGraph) (p : Nat × Nat) : Bool :=
  match g.getNode p.1 with
  | none => false
  | some n => (alookup n.forward p.2).isSome

/-- The backward (input) port `p.2` exists on node `p.1`:
`node.backward_port_ids().contains(&to.1)`. -/
def portExistsBwd (g : AGraph) (p : Nat × Nat) : Bool :=
  match g.getNode p.1 with
  | none => false
  | some n => p.2 ∈ n.backward

/-- Models `Port::insert_port`: insert `(node, port)` into the port's connection map,
returning whether it was newly inserted (the `Entry` API of the source). -/
def insertPortConn (port : GPort) (e : Nat × Nat) : Bool × GPort :=
  match alookup port.conns e.1 with
  | some s => if e.2 ∈ s then (false, port)
              else (true, ⟨aupdate port.conns e.1 (fun s => e.2 :: s)⟩)
  | none => (true, ⟨port.conns ++ [(e.1, [e.2])]⟩)

/-- The connection map of one output port records destination `d`. -/
def portConn (port : GPort) (d : Nat × Nat) : Bool :=
  match alookup port.conns d.1 with
  | none => false
  | some ps => d.2 ∈ ps

/-- The edge `s → d` is already recorded in the graph. -/
def edgePresent (g : AGraph) (s d : Nat × Nat) : Bool :=
  match g.getNode s.1 with
  | none => false
  | some n =>
    match alookup n.forward s.2 with
    | none => false
    | some port => portConn port d

/-- Write an edge into the graph through
`get_node_mut(&from.0).unwrap().get_forward_port_mut(&from.1).unwrap().insert_port(to)`,
also returning the newly-inserted flag. -/
def graphInsertPort (g : AGraph) (s d : Nat × Nat) : Bool × AGraph :=
  match g.getNode s.1 with
  | none => (false, g)
  | some node =>
    match alookup node.forward s.2 with
    | none => (false, g)
    | some port =>
      ((insertPortConn port d).1,
        ⟨aupdate g.nodes s.1
          (fun n => ⟨n.latency, n.backward,
            aupdate n.forward s.2 (fun _ => (insertPortConn port d).2)⟩)⟩)

/-- Result of `AudioGraph::try_insert_edge`.  The source returns
`Result<bool, bool>`: `portMissing` stands for `Err(false)` (the
`PortMissing` error of the consolidated error type), `cycleFound` for
`Err(true)` (`CycleFound`), and `ok b` for `Ok(b)` where `b` reports whether
the edge was newly inserted. -/
inductive EdgeResult where
  | ok (newlyInserted : Bool)
  | portMissing
  | cycleFound
deriving DecidableEq

/-- Models `AudioGraph::try_insert_edge`.  The returned graph is the state after the
call (the error paths of the source return before any mutation). -/
def tryInsertEdge (g : AGraph) (fuel : Nat) (s d : Nat × Nat) :
    Option (EdgeResult × AGraph) :=
  if !(portExistsFwd g s && portExistsBwd g d) then some (.portMissing, g)
  else
    match isConnected g fuel d.1 s.1 with
    | none => none
    | some true => some (.cycleFound, g)
    | some false =>
      some (.ok (graphInsertPort g s d).1, (graphInsertPort g s d).2)

theorem alookup_append_self {κ β : Type} [DecidableEq κ] (l : List (κ × β)) (k : κ)
    (v : β) (h : alookup l k = none) : alookup (l ++ [(k, v)]) k = some v := by
  induction l with
  | nil => simp [alookup]
  | cons hd tl ih =>
    obtain ⟨a, b⟩ := hd
    by_cases ha : a = k
    · simp [alookup, ha] at h
    · simp only [alookup, ha, if_neg ha, List.cons_append] at h ⊢
      exact ih h

theorem icFold_frozen (f : Nat → Option Bool) (ns : List Nat) (acc : Option Bool)
    (h : acc ≠ some false) :
    ns.foldl
      (fun acc n =>
        match acc with
        | some false => f n
        | other => other)
      acc = acc := by
  induction ns generalizing acc with
  | nil => rfl
  | cons n ns ih =>
    rcases acc with _ | b
    · exact ih none h
    · cases b with
      | false => exact absurd rfl h
      | true => exact ih (some true) h

theorem icFold_false_iff (f : Nat → Option Bool) (ns : List Nat) :
    icFold f ns = some false ↔ ∀ n ∈ ns, f n = some false := by
  induction ns with
  | nil => simp [icFold]
  | cons n ns ih =>
    unfold icFold at ih ⊢
    rw [List.foldl_cons]
    show List.foldl _ (f n) ns = some false ↔ _
    cases hr : f n with
    | none =>
      rw [icFold_frozen f ns none (by simp)]
      simp [hr]
    | some b =>
      cases b with
      | true =>
        rw [icFold_frozen f ns (some true) (by simp)]
        simp [hr]
      | false =>
        simp only [ih, List.mem_cons]
        constructor
        · intro hall m hm
          rcases hm with hm | hm
          · exact hm ▸ hr
          · exact hall m hm
        · intro hall m hm
          exact hall m (Or.inr hm)

/-- Models `is_connected(s, s)` is `true` whenever it terminates — in particular it is
never `some false` (the same-node check is the first thing the source does). -/
theorem isConnected_self_ne_false (g : AGraph) (fuel s : Nat) :
    isConnected g fuel s s ≠ some false := by
  cases fuel with
  | zero => simp [isConnected]
  | succ fuel => simp [isConnected]

/-- Stability of the cycle check: the depth-first search from `src` looking
for `tgt` never expands the node `tgt` itself when its verdict is `false`, so
changing the graph at node `tgt` only (which is what inserting an edge out of
`tgt` does) cannot change that verdict. -/
theorem isConnected_stable (g g' : AGraph) (tgt : Nat)
    (hg : ∀ n, n ≠ tgt → g'.getNode n = g.getNode n) :
    ∀ fuel src, isConnected g fuel src tgt = some false →
      isConnected g' fuel src tgt = some false := by
  intro fuel
  induction fuel with
  | zero => intro src h; simp [isConnected] at h
  | succ fuel ih =>
    intro src h
    unfold isConnected at h ⊢
    by_cases hst : src = tgt
    · rw [if_pos hst] at h; simp at h
    · rw [if_neg hst] at h ⊢
      rw [hg src hst]
      cases hn : g.getNode src with
      | none => rw [hn] at h; simp at h
      | some node =>
        rw [hn] at h
        rw [icFold_false_iff] at h ⊢
        intro n hmem
        exact ih n (h n hmem)

theorem insertPortConn_fst (port : GPort) (d : Nat × Nat) :
    (insertPortConn port d).1 = !portConn port d := by
  rcases h : alookup port.conns d.1 with _ | ps
  · simp [insertPortConn, portConn, h]
  · by_cases hm : d.2 ∈ ps
    · simp [insertPortConn, portConn, h, hm]
    · simp [insertPortConn, portConn, h, hm]

theorem portConn_insertPortConn (port : GPort) (d : Nat × Nat) :
    portConn (insertPortConn port d).2 d = true := by
  rcases h : alookup port.conns d.1 with _ | ps
  · simp only [insertPortConn, h]
    unfold portConn
    rw [alookup_append_self port.conns d.1 [d.2] h]
    simp
  · by_cases hm : d.2 ∈ ps
    · simp only [insertPortConn, h, if_pos hm]
      unfold portConn
      rw [h]
      simp [hm]
    · simp only [insertPortConn, h, if_neg hm]
      unfold portConn
      show (match alookup (aupdate port.conns d.1 fun s => d.2 :: s) d.1 with
            | none => false
            | some ps => (d.2 ∈ ps : Bool)) = true
      rw [alookup_aupdate_self, h]
      simp

theorem insertPortConn_of_present (port : GPort) (d : Nat × Nat)
    (h : portConn port d = true) : insertPortConn port d = (false, port) := by
  rcases hl : alookup port.conns d.1 with _ | ps
  · simp [portConn, hl] at h
  · simp only [portConn, hl, decide_eq_true_eq] at h
    simp [insertPortConn, hl, h]

theorem graphInsertPort_getNode_ne (g : AGraph) (s d : Nat × Nat) (n : Nat)
    (h : n ≠ s.1) : ((graphInsertPort g s d).2).getNode n = g.getNode n := by
  rcases hg : g.getNode s.1 with _ | node
  · simp only [graphInsertPort, hg]
  · rcases hp : alookup node.forward s.2 with _ | port
    · simp only [graphInsertPort, hg, hp]
    · simp only [graphInsertPort, hg, hp]
      show alookup (aupdate g.nodes s.1 _) n = alookup g.nodes n
      exact alookup_aupdate_ne _ _ _ _ h

theorem graphInsertPort_getNode_self (g : AGraph) (s d : Nat × Nat) (node : GNode)
    (port : GPort) (hg : g.getNode s.1 = some node)
    (hp : alookup node.forward s.2 = some port) :
    ((graphInsertPort g s d).2).getNode s.1 =
      some ⟨node.latency, node.backward,
        aupdate node.forward s.2 (fun _ => (insertPortConn port d).2)⟩ := by
  simp only [graphInsertPort, hg, hp]
  show alookup (aupdate g.nodes s.1 _) s.1 = _
  rw [alookup_aupdate_self]
  unfold AGraph.getNode at hg
  rw [hg]
  rfl

theorem graphInsertPort_fst (g : AGraph) (s d : Nat × Nat) (node : GNode)
    (port : GPort) (hg : g.getNode s.1 = some node)
    (hp : alookup node.forward s.2 = some port) :
    (graphInsertPort g s d).1 = !portConn port d := by
  simp only [graphInsertPort, hg, hp]
  exact insertPortConn_fst port d

theorem graphInsertPort_of_present (g : AGraph) (s d : Nat × Nat)
    (hp : edgePresent g s d = true) : graphInsertPort g s d = (false, g) := by
  rcases hg : g.getNode s.1 with _ | node
  · simp [edgePresent, hg] at hp
  · rcases hf : alookup node.forward s.2 with _ | port
    · simp [edgePresent, hg, hf] at hp
    · simp only [edgePresent, hg, hf] at hp
      simp only [graphInsertPort, hg, hf, insertPortConn_of_present port d hp]
      have hnode : aupdate node.forward s.2 (fun _ => port) = node.forward :=
        aupdate_eq_self _ _ _ (by intro v hv; rw [hf] at hv; cases hv; rfl)
      have hfun :
          aupdate g.nodes s.1
            (fun n => ⟨n.latency, n.backward, aupdate n.forward s.2 (fun _ => port)⟩) =
            g.nodes := by
        apply aupdate_eq_self
        intro v hv
        unfold AGraph.getNode at hg
        rw [hg] at hv
        cases hv
        show GNode.mk node.latency node.backward (aupdate node.forward s.2 fun _ => port) = node
        rw [hnode]
      rw [hfun]

/-- A single node with one input (backward) port `0` and one output (forward)
port `0`: the smallest graph on which a self-cycle can be attempted. -/
def selfLoopGraph : AGraph := ⟨[(0, ⟨0, [0], [(0, ⟨[]⟩)]⟩)]⟩

/-- A node with neither inputs nor outputs. -/
def noPortsGraph : AGraph := ⟨[(0, ⟨0, [], []⟩)]⟩

/-- Nodes `0` and `1`, each with input port `0` and output port `0`, and the
edge `0.out0 → 1.in0` already inserted — the `basic_cycle` test setup. -/
def twoNodeEdgeGraph : AGraph :=
  ⟨[(0, ⟨0, [0], [(0, ⟨[(1, [0])]⟩)]⟩), (1, ⟨0, [0], [(0, ⟨[]⟩)]⟩)]⟩

/-- A source node `0` (output port `0` only) and a sink node `1` (input port
`0` only), no edges. -/
def sourceSinkGraph : AGraph := ⟨[(0, ⟨0, [], [(0, ⟨[]⟩)]⟩), (1, ⟨0, [0], []⟩)]⟩

/-- C2 (amended): when both ports exist and the cycle check finds that the
destination node already reaches the source node along existing edges
(`is_connected(to.0, from.0)` returns `true`, which includes the case
`from.0 = to.0` of both ports living on the same node), `try_insert_edge`
returns the `CycleFound` error (`Err(true)` in the source) and the graph it
leaves behind is exactly the input graph. -/
theorem c2_cycle_rejected_graph_unchanged (g : AGraph) (fuel : Nat) (s d : Nat × Nat)
    (hf : portExistsFwd g s = true) (hb : portExistsBwd g d = true)
    (hc : isConnected g fuel d.1 s.1 = some true) :
    tryInsertEdge g fuel s d = some (.cycleFound, g) := by
  simp [tryInsertEdge, hf, hb, hc]

/-- C2 witness: on the `basic_cycle` test graph (edge `0.out0 → 1.in0`
present), inserting `1.out0 → 0.in0` is rejected with `CycleFound` and the
graph is unchanged. -/
theorem c2_cycle_rejected_witness :
    tryInsertEdge twoNodeEdgeGraph 5 (1, 0) (0, 0) = some (.cycleFound, twoNodeEdgeGraph) :=
  c2_cycle_rejected_graph_unchanged twoNodeEdgeGraph 5 (1, 0) (0, 0)
    (by decide) (by decide) (by decide)

/-- C2 counterexample: as literally stated the claim is false, because the
port-existence check runs before the cycle check.  On a graph with one
port-less node, the destination node (node `0`) trivially reaches the source
node (node `0` again), yet `try_insert_edge((0,5),(0,7))` returns the
`PortMissing` error (`Err(false)`), not `CycleFound`. -/
theorem c2_port_missing_precedence :
    isConnected noPortsGraph 5 0 0 = some true ∧
    tryInsertEdge noPortsGraph 5 (0, 5) (0, 7) = some (.portMissing, noPortsGraph) := by
  decide

/-- C3 (amended): inserting the same valid edge twice returns `Ok(true)` then
`Ok(false)`, and the second call leaves the graph exactly as it was after the
first, provided the edge is not already present and its destination node does
not already reach its source node (otherwise the first call would return
`Ok(false)` or `Err(CycleFound)` instead — see the counterexample). -/
theorem c3_insert_twice_ok_true_then_false (g : AGraph) (fuel : Nat) (s d : Nat × Nat)
    (hf : portExistsFwd g s = true) (hb : portExistsBwd g d = true)
    (hnp : edgePresent g s d = false)
    (hnc : isConnected g fuel d.1 s.1 = some false) :
    tryInsertEdge g fuel s d = some (.ok true, (graphInsertPort g s d).2) ∧
    tryInsertEdge (graphInsertPort g s d).2 fuel s d =
      some (.ok false, (graphInsertPort g s d).2) := by
  rcases hg : g.getNode s.1 with _ | node
  · simp [portExistsFwd, hg] at hf
  · rcases hp : alookup node.forward s.2 with _ | port
    · simp [portExistsFwd, hg, hp] at hf
    · have hds : d.1 ≠ s.1 := by
        intro hEq
        rw [hEq] at hnc
        exact isConnected_self_ne_false g fuel s.1 hnc
      have hpc : portConn port d = false := by
        simpa only [edgePresent, hg, hp] using hnp
      have hfst : (graphInsertPort g s d).1 = true := by
        rw [graphInsertPort_fst g s d node port hg hp, hpc]
        rfl
      have hself := graphInsertPort_getNode_self g s d node port hg hp
      have hfwd₁ : portExistsFwd (graphInsertPort g s d).2 s = true := by
        simp [portExistsFwd, hself, alookup_aupdate_self, hp]
      have hbwd₁ : portExistsBwd (graphInsertPort g s d).2 d = true := by
        rw [portExistsBwd] at hb ⊢
        rw [graphInsertPort_getNode_ne g s d d.1 hds]
        exact hb
      have hpres₁ : edgePresent (graphInsertPort g s d).2 s d = true := by
        simp only [edgePresent, hself, alookup_aupdate_self, hp, Option.map_some]
        exact portConn_insertPortConn port d
      have hnc₁ : isConnected (graphInsertPort g s d).2 fuel d.1 s.1 = some false :=
        isConnected_stable g (graphInsertPort g s d).2 s.1
          (fun n hn => graphInsertPort_getNode_ne g s d n hn) fuel d.1 hnc
      constructor
      · simp [tryInsertEdge, hf, hb, hnc, hfst]
      · have hsecond := graphInsertPort_of_present (graphInsertPort g s d).2 s d hpres₁
        simp [tryInsertEdge, hfwd₁, hbwd₁, hnc₁, hsecond]

/-- C3 witness: inserting the edge `0.out0 → 1.in0` twice into the two-node
edgeless graph returns `Ok(true)` then `Ok(false)` and the second call keeps
the graph of the first. -/
theorem c3_insert_twice_witness :
    tryInsertEdge sourceSinkGraph 5 (0, 0) (1, 0) =
      some (.ok true, (graphInsertPort sourceSinkGraph (0, 0) (1, 0)).2) ∧
    tryInsertEdge (graphInsertPort sourceSinkGraph (0, 0) (1, 0)).2 5 (0, 0) (1, 0) =
      some (.ok false, (graphInsertPort sourceSinkGraph (0, 0) (1, 0)).2) :=
  c3_insert_twice_ok_true_then_false sourceSinkGraph 5 (0, 0) (1, 0)
    (by decide) (by decide) (by decide) (by decide)

/-- C3 counterexample: the claim quantifies over every valid edge (both ports
exist), but for the self-edge `0.out0 → 0.in0` on a one-node graph both ports
exist and yet the first insertion already returns `Err(CycleFound)` (the
same-node case counts as a cycle), not `Ok(true)`. -/
theorem c3_self_cycle_counterexample :
    portExistsFwd selfLoopGraph (0, 0) = true ∧
    portExistsBwd selfLoopGraph (0, 0) = true ∧
    tryInsertEdge selfLoopGraph 5 (0, 0) (0, 0) = some (.cycleFound, selfLoopGraph) := by
  decide

/-! ## The scheduler of `polygraph/src/graph.rs`

`Scheduler::compile` walks `process_order`, frees the claims of each node's
backward ports, assigns buffers to its connected forward ports, propagates
claims to the consumers and emits `Sum` tasks when a consumer was already
claimed.  `BufferAllocator` panics (`unwrap` / `assert!`) are modelled as
`none`. -/

/-- Models `usize::MAX`, the sentinel marking an output port with no connections. -/
def SENTINEL : Nat := 18446744073709551615

/-- Models `Task<NodeID, PortID>`: a node invocation with per-port buffer
assignments, or the summation of two buffers into a third. -/
inductive GTask where
  | node (id : Nat) (inputs : List (Nat × Nat)) (outputs : List (Nat × Nat))
  | sum (left right output : Nat)
deriving DecidableEq

/-- Models `BufferAllocator`: `buffers` maps each claiming `(node, input-port)` pair
to its reserved buffer index; `ports` holds, per buffer index, the set of
ports that still have to consume that buffer. -/
structure Alloc where
  buffers : List ((Nat × Nat) × Nat)
  ports : List (List (Nat × Nat))
deriving DecidableEq

/-- Models `BufferAllocator::get_free` via `get_empty_set_index`: index of the first
buffer whose reservation set is empty, pushing a fresh empty set when none
exists.  Note that the source does not reserve the returned slot. -/
def getFree : List (List (Nat × Nat)) → Nat × List (List (Nat × Nat))
  | [] => (0, [[]])
  | s :: rest =>
    if s.isEmpty then (0, s :: rest)
    else ((getFree rest).1 + 1, s :: (getFree rest).2)

/-- Models `BufferAllocator::remove_claim`: drop the port's claim, unreserve it from
the claimed buffer's port set.  `none` models the `unwrap` (no claim) and the
two internal-error assertions. -/
def removeClaim (a : Alloc) (p : Nat × Nat) : Option (Nat × Alloc) :=
  match alookup a.buffers p with
  | none => none
  | some i =>
    match a.ports.get? i with
    | none => none
    | some slot =>
      if p ∈ slot then some (i, ⟨aerase a.buffers p, a.ports.set i (slot.erase p)⟩)
      else none

/-- The `extract_if` loop inside `BufferAllocator::claim`: ports that already
hold a claim are extracted, the others claim buffer `i`.  Returns
`(extracted, kept, updated claims map)`. -/
def claimScan (i : Nat) :
    List ((Nat × Nat) × Nat) → List (Nat × Nat) →
      List (Nat × Nat) × List (Nat × Nat) × List ((Nat × Nat) × Nat)
  | bufs, [] => ([], [], bufs)
  | bufs, p :: rest =>
    match alookup bufs p with
    | some _ =>
      match claimScan i bufs rest with
      | (e, k, b) => (p :: e, k, b)
    | none =>
      match claimScan i ((p, i) :: bufs) rest with
      | (e, k, b) => (e, p :: k, b)

/-- Models `BufferAllocator::claim(buffer_index, ports)`: the buffer's (empty)
reservation set is replaced by `ports`, then already-claimed ports are
extracted.  `none` models the index panic and the cannot-claim-claimed
assertion. -/
def claimOp (a : Alloc) (i : Nat) (ps : List (Nat × Nat)) :
    Option (List (Nat × Nat) × Alloc) :=
  match a.ports.get? i with
  | none => none
  | some slot =>
    if slot.isEmpty then
      match claimScan i a.buffers ps with
      | (ext, kept, bufs) => some (ext, ⟨bufs, a.ports.set i kept⟩)
    else none

/-- The `Sum`-emission loop of `Scheduler::compile`: for every port extracted
by `claim`, free its previous claim, claim a fresh buffer for it and emit
`Task::Sum { left: buf_index, right: other_buf_idx, output: new_free_buf }`. -/
def emitSums (bufIdx : Nat) : Alloc → List (Nat × Nat) → Option (List GTask × Alloc)
  | a, [] => some ([], a)
  | a, p :: rest =>
    match removeClaim a p with
    | none => none
    | some (other, a₁) =>
      match claimOp ⟨a₁.buffers, (getFree a₁.ports).2⟩ (getFree a₁.ports).1 [p] with
      | none => none
      | some (ext, a₂) =>
        if ext.isEmpty then
          match emitSums bufIdx a₂ rest with
          | none => none
          | some (ts, a₃) => some (.sum bufIdx other (getFree a₁.ports).1 :: ts, a₃)
        else none

/-- Flatten one port's connection map into `(node, port)` pairs, as the
`flat_map` inside `Scheduler::compile` does. -/
def flatConns (port : GPort) : List (Nat × Nat) :=
  port.conns.foldr (fun pr acc => pr.2.map (fun p => (pr.1, p)) ++ acc) []

/-- The outer claim loop of `Scheduler::compile`: zip the just-assigned output
buffer indices with the node's forward ports, skip unused (`usize::MAX`)
outputs, claim each buffer for all its consumers and emit the resulting `Sum`
tasks. -/
def claimPhase : Alloc → List (Nat × GPort) → Option (List GTask × Alloc)
  | a, [] => some ([], a)
  | a, (i, port) :: rest =>
    if i = SENTINEL then claimPhase a rest
    else
      match claimOp a i (flatConns port) with
      | none => none
      | some (ext, a₁) =>
        match emitSums i a₁ ext with
        | none => none
        | some (ts₁, a₂) =>
          match claimPhase a₂ rest with
          | none => none
          | some (ts₂, a₃) => some (ts₁ ++ ts₂, a₃)

/-- The `inputs` collection of `Scheduler::compile`: remove the claim of every
backward port of the node being scheduled. -/
def takeInputs (id : Nat) : Alloc → List Nat → Option (List (Nat × Nat) × Alloc)
  | a, [] => some ([], a)
  | a, pid :: rest =>
    match removeClaim a (id, pid) with
    | none => none
    | some (i, a₁) =>
      match takeInputs id a₁ rest with
      | none => none
      | some (ins, a₂) => some ((pid, i) :: ins, a₂)

/-- The `outputs` collection of `Scheduler::compile`: `usize::MAX` for ports
without connections, otherwise `get_free` (which, in the source, does not
reserve the slot it returns). -/
def takeOutputs : Alloc → List (Nat × GPort) → List (Nat × Nat) × Alloc
  | a, [] => ([], a)
  | a, (pid, port) :: rest =>
    if port.conns.isEmpty then
      match takeOutputs a rest with
      | (outs, a₁) => ((pid, SENTINEL) :: outs, a₁)
    else
      match takeOutputs ⟨a.buffers, (getFree a.ports).2⟩ rest with
      | (outs, a₁) => ((pid, (getFree a.ports).1) :: outs, a₁)

/-- The main loop of `Scheduler::compile` over `process_order`. -/
def schedCompile (t : AGraph) : List Nat → Alloc → Option (List GTask × Alloc)
  | [], a => some ([], a)
  | id :: rest, a =>
    match t.getNode id with
    | none => none
    | some node =>
      match takeInputs id a node.backward with
      | none => none
      | some (ins, a₁) =>
        match takeOutputs a₁ node.forward with
        | (outs, a₂) =>
          match claimPhase a₂ (List.zipWith (fun o f => (o.2, f.2)) outs node.forward) with
          | none => none
          | some (sums, a₃) =>
            match schedCompile t rest a₃ with
            | none => none
            | some (ts, a₄) => some (.node id ins outs :: (sums ++ ts), a₄)

/-- Models `Scheduler::compile`: run the main loop from an empty allocator and pair
the schedule with `allocator.len()` (the number of intermediate buffers). -/
def compileCore (t : AGraph) (order : List Nat) : Option (Nat × List GTask) :=
  match schedCompile t order ⟨[], []⟩ with
  | none => none
  | some (ts, a) => some (a.ports.length, ts)

/-! ### The transposed-graph construction (`AudioGraph::scheduler`) -/

/-- Models `Node::with_reversed_io_layout`: the backward ids become the forward port
keys (with empty connection maps) and vice versa. -/
def reversedNode (n : GNode) : GNode :=
  ⟨n.latency, n.forward.map Prod.fst, n.backward.map (fun p => (p, (⟨[]⟩ : GPort)))⟩

/-- The body of the `if let Some(node) ... else` inside
`insert_opposite_ports`: fetch the node being wired in the transposed graph,
inserting it with reversed layout when absent (`none` models the `unwrap` on
the original graph). -/
def ensureNode (orig t : AGraph) (id : Nat) : Option AGraph :=
  match t.getNode id with
  | some _ => some t
  | none =>
    match orig.getNode id with
    | none => none
    | some n => some ⟨t.nodes ++ [(id, reversedNode n)]⟩

/-- Models `node.get_forward_port_mut(port_idx).unwrap().insert_port(...)` on the
transposed graph under construction. -/
def insertPortT (t : AGraph) (nid pid : Nat) (e : Nat × Nat) : Option (Bool × AGraph) :=
  match t.getNode nid with
  | none => none
  | some node =>
    match alookup node.forward pid with
    | none => none
    | some port =>
      some ((insertPortConn port e).1,
        ⟨aupdate t.nodes nid
          (fun n => ⟨n.latency, n.backward,
            aupdate n.forward pid (fun _ => (insertPortConn port e).2)⟩)⟩)

/-- The innermost loop of `insert_opposite_ports` over `port_indices`: ensure
the target node exists in the transposed graph, then insert the opposite
port; the source asserts the insertion is new (`none` otherwise). -/
def iopPorts (orig : AGraph) (nodeIdx portId tgt : Nat) :
    List Nat → AGraph → Option AGraph
  | [], t => some t
  | pidx :: rest, t =>
    match ensureNode orig t tgt with
    | none => none
    | some t₁ =>
      match insertPortT t₁ tgt pidx (nodeIdx, portId) with
      | none => none
      | some (newly, t₂) =>
        if newly then iopPorts orig nodeIdx portId tgt rest t₂ else none

/-- One call frame of `AudioGraph::insert_opposite_ports`: the whole body for
one node, the loop over the node's forward ports, or the loop over one port's
connection-map entries.  Defunctionalizing the nested loops into a single
fuel-indexed function keeps the recursion structural (so concrete graphs
evaluate by `decide`); `none` is fuel exhaustion or a panic. -/
inductive IopCall where
  | node (nodeIdx : Nat)
  | fwd (nodeIdx : Nat) (ports : List (Nat × GPort))
  | conns (nodeIdx portId : Nat) (cs : List (Nat × List Nat))

/-- Models `insert_opposite_ports` (all three nested loops): the state is the
transposed graph being built plus the `processed` list, which becomes
`process_order`.  A node is pushed onto `processed` after its whole body, and
the recursion into each connection's node happens before that connection's
ports are inserted, exactly as in the source. -/
def iopStep (orig : AGraph) : Nat → IopCall → AGraph → List Nat → Option (AGraph × List Nat)
  | 0, _, _, _ => none
  | fuel + 1, c, t, pr =>
    match c with
    | .node nodeIdx =>
      if nodeIdx ∈ pr then some (t, pr)
      else
        match orig.getNode nodeIdx with
        | none => none
        | some node =>
          match iopStep orig fuel (.fwd nodeIdx node.forward) t pr with
          | none => none
          | some (t₁, pr₁) => some (t₁, pr₁ ++ [nodeIdx])
    | .fwd _ [] => some (t, pr)
    | .fwd nodeIdx ((pid, port) :: rest) =>
      match iopStep orig fuel (.conns nodeIdx pid port.conns) t pr with
      | none => none
      | some (t₁, pr₁) => iopStep orig fuel (.fwd nodeIdx rest) t₁ pr₁
    | .conns _ _ [] => some (t, pr)
    | .conns nodeIdx pid ((tgt, pidxs) :: rest) =>
      match iopStep orig fuel (.node tgt) t pr with
      | none => none
      | some (t₁, pr₁) =>
        match iopPorts orig nodeIdx pid tgt pidxs t₁ with
        | none => none
        | some t₂ => iopStep orig fuel (.conns nodeIdx pid rest) t₂ pr₁

/-- The loop of `AudioGraph::scheduler` over the root nodes: insert each root
with reversed layout (asserting it is new) and run
`insert_opposite_ports` from it. -/
def schedRoots (g : AGraph) (fuel : Nat) :
    List Nat → AGraph → List Nat → Option (AGraph × List Nat)
  | [], t, ord => some (t, ord)
  | r :: rest, t, ord =>
    match g.getNode r with
    | none => none
    | some n =>
      if (t.getNode r).isSome then none
      else
        match iopStep g fuel (.node r) ⟨t.nodes ++ [(r, reversedNode n)]⟩ ord with
        | none => none
        | some (t₂, ord₂) => schedRoots g fuel rest t₂ ord₂

/-- Models `AudioGraph::scheduler(root_nodes)`: the transposed graph and the
`process_order`. -/
def schedulerOf (g : AGraph) (roots : List Nat) (fuel : Nat) : Option (AGraph × List Nat) :=
  schedRoots g fuel roots ⟨[]⟩ []

/-- Models `AudioGraph::compile(root_nodes)`: build the scheduler, then compile. -/
def compileG (g : AGraph) (roots : List Nat) (fuel : Nat) : Option (Nat × List GTask) :=
  match schedulerOf g roots fuel with
  | none => none
  | some (t, order) => compileCore t order

/-- The `test_chain` graph: node `0` is the master (single input port `0`),
nodes `1 → 2 → 3` form the chain of single-input single-output unit nodes and
node `3` feeds the master. -/
def chainGraph : AGraph :=
  ⟨[(0, ⟨0, [0], []⟩),
    (1, ⟨0, [], [(0, ⟨[(2, [0])]⟩)]⟩),
    (2, ⟨0, [0], [(0, ⟨[(3, [0])]⟩)]⟩),
    (3, ⟨0, [0], [(0, ⟨[(0, [0])]⟩)]⟩)]⟩

/-- Every buffer index of a task is below `n` (the unused-port sentinel is
excluded for node port assignments, `Sum` operands are always real). -/
def TaskOk (n : Nat) : GTask → Prop
  | .node _ ins outs =>
    (∀ pr ∈ ins, pr.2 = SENTINEL ∨ pr.2 < n) ∧
    (∀ pr ∈ outs, pr.2 = SENTINEL ∨ pr.2 < n)
  | .sum l r o => l < n ∧ r < n ∧ o < n

theorem TaskOk.mono {m n : Nat} (h : m ≤ n) : ∀ t : GTask, TaskOk m t → TaskOk n t := by
  intro t ht
  cases t with
  | node id ins outs =>
    obtain ⟨h₁, h₂⟩ := ht
    refine ⟨fun pr hm => ?_, fun pr hm => ?_⟩
    · rcases h₁ pr hm with hs | hl
      · exact Or.inl hs
      · exact Or.inr (lt_of_lt_of_le hl h)
    · rcases h₂ pr hm with hs | hl
      · exact Or.inl hs
      · exact Or.inr (lt_of_lt_of_le hl h)
  | sum l r o =>
    obtain ⟨h₁, h₂, h₃⟩ := ht
    exact ⟨lt_of_lt_of_le h₁ h, lt_of_lt_of_le h₂ h, lt_of_lt_of_le h₃ h⟩

/-- Allocator invariant: every claim points below the number of buffers. -/
def AllocOk (a : Alloc) : Prop := ∀ pr ∈ a.buffers, pr.2 < a.ports.length

theorem alookup_mem {κ β : Type} [DecidableEq κ] (l : List (κ × β)) (k : κ) (v : β)
    (h : alookup l k = some v) : (k, v) ∈ l := by
  induction l with
  | nil => simp [alookup] at h
  | cons hd tl ih =>
    obtain ⟨a, b⟩ := hd
    by_cases ha : a = k
    · subst ha
      rw [alookup, if_pos rfl] at h
      injection h with h
      exact List.mem_cons.mpr (Or.inl (by rw [h]))
    · rw [alookup, if_neg ha] at h
      exact List.mem_cons_of_mem _ (ih h)

theorem getFree_lt (l : List (List (Nat × Nat))) :
    (getFree l).1 < (getFree l).2.length := by
  induction l with
  | nil => simp [getFree]
  | cons s rest ih =>
    by_cases h : s.isEmpty
    · simp [getFree, h]
    · simp only [getFree, if_neg h, List.length_cons]
      omega

theorem getFree_le (l : List (List (Nat × Nat))) :
    l.length ≤ (getFree l).2.length := by
  induction l with
  | nil => simp [getFree]
  | cons s rest ih =>
    by_cases h : s.isEmpty
    · simp [getFree, h]
    · simp only [getFree, if_neg h, List.length_cons]
      omega

theorem removeClaim_spec (a : Alloc) (p : Nat × Nat) (i : Nat) (a' : Alloc)
    (h : removeClaim a p = some (i, a')) (hok : AllocOk a) :
    i < a.ports.length ∧ a'.ports.length = a.ports.length ∧ AllocOk a' := by
  unfold removeClaim at h
  split at h
  · simp at h
  next j hl =>
    split at h
    · simp at h
    next slot hs =>
      split at h
      next hm =>
        have hj : ∀ x, a.ports.get? x = some slot → x < a.ports.length := by
          intro x hx
          by_contra hc
          push_neg at hc
          rw [List.get?_eq_none.mpr hc] at hx
          cases hx
        simp only [Option.some.injEq, Prod.mk.injEq] at h
        obtain ⟨hi, ha⟩ := h
        subst ha
        refine ⟨by rw [← hi]; exact hj _ hs, by simp, ?_⟩
        intro pr hpr
        have hmem : pr ∈ a.buffers := mem_aerase a.buffers p pr hpr
        have := hok pr hmem
        simpa using this
      next hm => simp at h

theorem claimScan_spec (L i : Nat) (hi : i < L) :
    ∀ (ps : List (Nat × Nat)) (bufs : List ((Nat × Nat) × Nat)),
      (∀ pr ∈ bufs, pr.2 < L) →
      ∀ pr ∈ (claimScan i bufs ps).2.2, pr.2 < L := by
  intro ps
  induction ps with
  | nil =>
    intro bufs hb pr hm
    simp only [claimScan] at hm
    exact hb pr hm
  | cons p rest ih =>
    intro bufs hb pr hm
    simp only [claimScan] at hm
    cases hl : alookup bufs p with
    | some j =>
      rw [hl] at hm
      exact ih bufs hb pr hm
    | none =>
      rw [hl] at hm
      have hb' : ∀ pr ∈ (p, i) :: bufs, pr.2 < L := by
        intro pr hpr
        rcases List.mem_cons.mp hpr with hpr | hpr
        · subst hpr; exact hi
        · exact hb pr hpr
      exact ih ((p, i) :: bufs) hb' pr hm

theorem claimOp_spec (a : Alloc) (i : Nat) (ps : List (Nat × Nat))
    (ext : List (Nat × Nat)) (a' : Alloc)
    (h : claimOp a i ps = some (ext, a')) (hok : AllocOk a) :
    a'.ports.length = a.ports.length ∧ AllocOk a' := by
  unfold claimOp at h
  split at h
  · simp at h
  next slot hs =>
    split at h
    next hemp =>
      have hi : i < a.ports.length := by
        by_contra hc
        push_neg at hc
        rw [List.get?_eq_none.mpr hc] at hs
        cases hs
      split at h
      next ext₁ kept₁ bufs₁ hscan =>
        simp only [Option.some.injEq, Prod.mk.injEq] at h
        obtain ⟨hext, ha⟩ := h
        subst ha
        refine ⟨by simp, ?_⟩
        intro pr hpr
        simp only [List.length_set]
        have := claimScan_spec a.ports.length i hi ps a.buffers hok pr
        rw [hscan] at this
        exact this hpr
    next hemp => simp at h

theorem mem_zipWith_exists {α β γ : Type} (f : α → β → γ) :
    ∀ (l₁ : List α) (l₂ : List β) (c : γ), c ∈ List.zipWith f l₁ l₂ →
      ∃ x ∈ l₁, ∃ y ∈ l₂, c = f x y := by
  intro l₁
  induction l₁ with
  | nil => intro l₂ c hc; simp at hc
  | cons x l₁ ih =>
    intro l₂ c hc
    cases l₂ with
    | nil => simp at hc
    | cons y l₂ =>
      rw [List.zipWith_cons_cons, List.mem_cons] at hc
      rcases hc with hc | hc
      · exact ⟨x, List.mem_cons_self _ _, y, List.mem_cons_self _ _, hc⟩
      · obtain ⟨a, ha, b, hb, hab⟩ := ih l₂ c hc
        exact ⟨a, List.mem_cons_of_mem _ ha, b, List.mem_cons_of_mem _ hb, hab⟩

theorem emitSums_spec (bufIdx : Nat) :
    ∀ (ps : List (Nat × Nat)) (a : Alloc) (ts : List GTask) (a' : Alloc),
      AllocOk a → bufIdx < a.ports.length →
      emitSums bufIdx a ps = some (ts, a') →
      AllocOk a' ∧ a.ports.length ≤ a'.ports.length ∧
        ∀ t ∈ ts, TaskOk a'.ports.length t := by
  intro ps
  induction ps with
  | nil =>
    intro a ts a' hok hb h
    simp only [emitSums, Option.some.injEq, Prod.mk.injEq] at h
    obtain ⟨hts, ha⟩ := h
    subst ha
    subst hts
    exact ⟨hok, le_refl _, by simp⟩
  | cons p rest ih =>
    intro a ts a' hok hb h
    unfold emitSums at h
    split at h
    · simp at h
    next other a₁ hrc =>
      obtain ⟨ho_lt, hlen₁, hok₁⟩ := removeClaim_spec a p other a₁ hrc hok
      split at h
      · simp at h
      next ext a₂ hco =>
        have hok_mid : AllocOk ⟨a₁.buffers, (getFree a₁.ports).2⟩ := by
          intro pr hpr
          exact lt_of_lt_of_le (hok₁ pr hpr) (getFree_le a₁.ports)
        obtain ⟨hlen₂, hok₂⟩ := claimOp_spec _ _ _ _ _ hco hok_mid
        split at h
        next hext =>
          split at h
          · simp at h
          next ts₃ a₃ hrec =>
            have hgf_lt : (getFree a₁.ports).1 < (getFree a₁.ports).2.length :=
              getFree_lt a₁.ports
            have hgf_le : a₁.ports.length ≤ (getFree a₁.ports).2.length :=
              getFree_le a₁.ports
            have hb₂ : bufIdx < a₂.ports.length := by
              simp only [hlen₂]
              omega
            obtain ⟨hok₃, hle₃, hts₃⟩ := ih a₂ ts₃ a₃ hok₂ hb₂ hrec
            simp only [Option.some.injEq, Prod.mk.injEq] at h
            obtain ⟨hts, ha⟩ := h
            subst ha
            subst hts
            have hlen₂' : a₂.ports.length = (getFree a₁.ports).2.length := by
              simpa using hlen₂
            refine ⟨hok₃, by omega, ?_⟩
            intro t ht
            rcases List.mem_cons.mp ht with ht | ht
            · subst ht
              exact ⟨by omega, by omega, by omega⟩
            · exact hts₃ t ht
        next hext => simp at h

theorem claimPhase_spec :
    ∀ (pairs : List (Nat × GPort)) (a : Alloc) (ts : List GTask) (a' : Alloc),
      AllocOk a →
      (∀ pr ∈ pairs, pr.1 = SENTINEL ∨ pr.1 < a.ports.length) →
      claimPhase a pairs = some (ts, a') →
      AllocOk a' ∧ a.ports.length ≤ a'.ports.length ∧
        ∀ t ∈ ts, TaskOk a'.ports.length t := by
  intro pairs
  induction pairs with
  | nil =>
    intro a ts a' hok _ h
    simp only [claimPhase, Option.some.injEq, Prod.mk.injEq] at h
    obtain ⟨hts, ha⟩ := h
    subst ha
    subst hts
    exact ⟨hok, le_refl _, by simp⟩
  | cons pr rest ih =>
    intro a ts a' hok hidx h
    obtain ⟨i, port⟩ := pr
    unfold claimPhase at h
    split at h
    next hsen =>
      exact ih a ts a' hok (fun q hq => by
        rcases hidx q (List.mem_cons_of_mem _ hq) with hs | hl
        · exact Or.inl hs
        · exact Or.inr hl) h
    next hsen =>
      have hi_lt : i < a.ports.length := by
        rcases hidx (i, port) (List.mem_cons_self _ _) with hs | hl
        · exact absurd hs hsen
        · exact hl
      split at h
      · simp at h
      next ext a₁ hco =>
        obtain ⟨hlen₁, hok₁⟩ := claimOp_spec _ _ _ _ _ hco hok
        split at h
        · simp at h
        next ts₁ a₂ hes =>
          obtain ⟨hok₂, hle₂, hts₁⟩ :=
            emitSums_spec i ext a₁ ts₁ a₂ hok₁ (by omega) hes
          split at h
          · simp at h
          next ts₂ a₃ hcp =>
            obtain ⟨hok₃, hle₃, hts₂⟩ := ih a₂ ts₂ a₃ hok₂ (fun q hq => by
              rcases hidx q (List.mem_cons_of_mem _ hq) with hs | hl
              · exact Or.inl hs
              · exact Or.inr (by omega)) hcp
            simp only [Option.some.injEq, Prod.mk.injEq] at h
            obtain ⟨hts, ha⟩ := h
            subst ha
            subst hts
            refine ⟨hok₃, by omega, ?_⟩
            intro t ht
            rcases List.mem_append.mp ht with ht | ht
            · exact TaskOk.mono hle₃ t (hts₁ t ht)
            · exact hts₂ t ht

theorem takeInputs_spec (id : Nat) :
    ∀ (ps : List Nat) (a : Alloc) (ins : List (Nat × Nat)) (a' : Alloc),
      AllocOk a → takeInputs id a ps = some (ins, a') →
      AllocOk a' ∧ a'.ports.length = a.ports.length ∧
        ∀ pr ∈ ins, pr.2 < a'.ports.length := by
  intro ps
  induction ps with
  | nil =>
    intro a ins a' hok h
    simp only [takeInputs, Option.some.injEq, Prod.mk.injEq] at h
    obtain ⟨hins, ha⟩ := h
    subst ha
    subst hins
    exact ⟨hok, rfl, by simp⟩
  | cons pid rest ih =>
    intro a ins a' hok h
    unfold takeInputs at h
    split at h
    · simp at h
    next i a₁ hrc =>
      obtain ⟨hi_lt, hlen₁, hok₁⟩ := removeClaim_spec a (id, pid) i a₁ hrc hok
      split at h
      · simp at h
      next ins₁ a₂ hrec =>
        obtain ⟨hok₂, hlen₂, hins₁⟩ := ih a₁ ins₁ a₂ hok₁ hrec
        simp only [Option.some.injEq, Prod.mk.injEq] at h
        obtain ⟨hins, ha⟩ := h
        subst ha
        subst hins
        refine ⟨hok₂, by omega, ?_⟩
        intro q hq
        rcases List.mem_cons.mp hq with hq | hq
        · subst hq; simpa using by omega
        · exact hins₁ q hq

theorem takeOutputs_spec :
    ∀ (fwd : List (Nat × GPort)) (a : Alloc),
      AllocOk a →
      AllocOk (takeOutputs a fwd).2 ∧
        a.ports.length ≤ (takeOutputs a fwd).2.ports.length ∧
        ∀ pr ∈ (takeOutputs a fwd).1,
          pr.2 = SENTINEL ∨ pr.2 < (takeOutputs a fwd).2.ports.length := by
  intro fwd
  induction fwd with
  | nil =>
    intro a hok
    exact ⟨hok, le_refl _, by simp [takeOutputs]⟩
  | cons pr rest ih =>
    intro a hok
    obtain ⟨pid, port⟩ := pr
    by_cases hemp : port.conns.isEmpty
    · rcases hto : takeOutputs a rest with ⟨outs, a₁⟩
      have heq : takeOutputs a ((pid, port) :: rest) = ((pid, SENTINEL) :: outs, a₁) := by
        unfold takeOutputs
        rw [if_pos hemp, hto]
      obtain ⟨hok₁, hle₁, hbd₁⟩ := ih a hok
      rw [hto] at hok₁ hle₁ hbd₁
      dsimp only at hok₁ hle₁ hbd₁
      rw [heq]
      dsimp only
      refine ⟨hok₁, hle₁, ?_⟩
      intro q hq
      rcases List.mem_cons.mp hq with hq | hq
      · subst hq; exact Or.inl rfl
      · exact hbd₁ q hq
    · rcases hto : takeOutputs ⟨a.buffers, (getFree a.ports).2⟩ rest with ⟨outs, a₁⟩
      have heq : takeOutputs a ((pid, port) :: rest) =
          ((pid, (getFree a.ports).1) :: outs, a₁) := by
        unfold takeOutputs
        rw [if_neg hemp, hto]
      have hok_mid : AllocOk ⟨a.buffers, (getFree a.ports).2⟩ := by
        intro q hq
        exact lt_of_lt_of_le (hok q hq) (getFree_le a.ports)
      obtain ⟨hok₁, hle₁, hbd₁⟩ := ih ⟨a.buffers, (getFree a.ports).2⟩ hok_mid
      rw [hto] at hok₁ hle₁ hbd₁
      dsimp only at hok₁ hle₁ hbd₁
      have hgf_lt := getFree_lt a.ports
      have hgf_le := getFree_le a.ports
      rw [heq]
      dsimp only
      refine ⟨hok₁, by omega, ?_⟩
      intro q hq
      rcases List.mem_cons.mp hq with hq | hq
      · subst hq
        refine Or.inr ?_
        show (getFree a.ports).1 < a₁.ports.length
        omega
      · exact hbd₁ q hq

theorem schedCompile_spec (t : AGraph) :
    ∀ (order : List Nat) (a : Alloc) (ts : List GTask) (a' : Alloc),
      AllocOk a → schedCompile t order a = some (ts, a') →
      AllocOk a' ∧ a.ports.length ≤ a'.ports.length ∧
        ∀ task ∈ ts, TaskOk a'.ports.length task := by
  intro order
  induction order with
  | nil =>
    intro a ts a' hok h
    simp only [schedCompile, Option.some.injEq, Prod.mk.injEq] at h
    obtain ⟨hts, ha⟩ := h
    subst ha
    subst hts
    exact ⟨hok, le_refl _, by simp⟩
  | cons id rest ih =>
    intro a ts a' hok h
    unfold schedCompile at h
    split at h
    · simp at h
    next node hnode =>
      split at h
      · simp at h
      next ins a₁ hti =>
        obtain ⟨hok₁, hlen₁, hins⟩ := takeInputs_spec id node.backward a ins a₁ hok hti
        split at h
        next outs a₂ hto =>
          obtain ⟨hok₂, hle₂, houts⟩ := takeOutputs_spec node.forward a₁ hok₁
          rw [hto] at hok₂ hle₂ houts
          dsimp only at hok₂ hle₂ houts
          split at h
          · simp at h
          next sums a₃ hcp =>
            have hpairs : ∀ pr ∈ List.zipWith (fun o f => (o.2, f.2)) outs node.forward,
                pr.1 = SENTINEL ∨ pr.1 < a₂.ports.length := by
              intro pr hpr
              obtain ⟨o, ho, f, hf, hof⟩ := mem_zipWith_exists _ outs node.forward pr hpr
              subst hof
              exact houts o ho
            obtain ⟨hok₃, hle₃, hsums⟩ := claimPhase_spec _ a₂ sums a₃ hok₂ hpairs hcp
            split at h
            · simp at h
            next ts₄ a₄ hrec =>
              obtain ⟨hok₄, hle₄, hts₄⟩ := ih a₃ ts₄ a₄ hok₃ hrec
              simp only [Option.some.injEq, Prod.mk.injEq] at h
              obtain ⟨hts, ha⟩ := h
              subst ha
              subst hts
              refine ⟨hok₄, by omega, ?_⟩
              intro task htask
              rcases List.mem_cons.mp htask with htask | htask
              · subst htask
                refine ⟨?_, ?_⟩
                · intro q hq
                  refine Or.inr ?_
                  have := hins q hq
                  omega
                · intro q hq
                  rcases houts q hq with hs | hl
                  · exact Or.inl hs
                  · exact Or.inr (by omega)
              · rcases List.mem_append.mp htask with htask | htask
                · exact TaskOk.mono (by omega) _ (hsums _ htask)
                · exact hts₄ _ htask

theorem compileCore_bound (t : AGraph) (order : List Nat) (n : Nat) (ts : List GTask)
    (h : compileCore t order = some (n, ts)) : ∀ task ∈ ts, TaskOk n task := by
  unfold compileCore at h
  split at h
  · simp at h
  next ts₁ a hsc =>
    obtain ⟨_, _, hts⟩ :=
      schedCompile_spec t order ⟨[], []⟩ ts₁ a (by intro pr hpr; simp at hpr) hsc
    simp only [Option.some.injEq, Prod.mk.injEq] at h
    obtain ⟨hn, hts'⟩ := h
    subst hn
    subst hts'
    exact hts

/-- C1: whenever `compile` returns a `(num_buffers, schedule)` pair (for any
graph and any set of root nodes — acyclicity is not even needed), every
buffer index appearing in any task of the schedule is strictly below
`num_buffers`: a node task's input and output assignments (excluding the
`usize::MAX` unused-port sentinel) and a sum task's left, right and output
operands. -/
theorem c1_compile_buffer_indices_bounded (g : AGraph) (roots : List Nat)
    (fuel n : Nat) (ts : List GTask)
    (h : compileG g roots fuel = some (n, ts)) : ∀ task ∈ ts, TaskOk n task := by
  unfold compileG at h
  split at h
  · simp at h
  next t order hsched => exact compileCore_bound t order n ts h

/-- The schedule `compile` produces for the chain graph when the chain source
(node 1) is given as the root — the only root choice on which the compiled
traversal reaches the whole chain. -/
def chainTasks : List GTask :=
  [.node 0 [] [(0, 0)], .node 3 [(0, 0)] [(0, 0)],
    .node 2 [(0, 0)] [(0, 0)], .node 1 [(0, 0)] []]

/-- C1 witness: a concrete successful compilation (the chain graph rooted at
its source node, which compiles to `chainTasks` with `num_buffers = 1`),
instantiated at one of the four emitted tasks. -/
theorem c1_compile_buffer_indices_bounded_witness :
    TaskOk 1 (GTask.node 3 [(0, 0)] [(0, 0)]) :=
  c1_compile_buffer_indices_bounded chainGraph [1] 32 1 chainTasks (by decide)
    (GTask.node 3 [(0, 0)] [(0, 0)]) (by decide)

/-- C4: compiling the three-node chain with the master as root — the exact
setup of the repository's own `test_chain` — does NOT produce the four
`Process` tasks in chain order sharing buffer 0 with `num_buffers = 1` that
the claim (and `test_chain`) expects.  `insert_opposite_ports` walks the
original graph's forward (output) ports starting from the root, and a master
node has no outputs, so the traversal reaches nothing: the result is a single
task for the master alone, with its one output port marked unused
(`usize::MAX`) even though it is an input port, and `num_buffers = 0`. -/
theorem c4_chain_compile_reaches_nothing :
    compileG chainGraph [0] 32 = some (0, [.node 0 [] [(0, SENTINEL)]]) := by decide

/-! ## Voice clusters and `move_state`
(`mythril_osc/src/cluster.rs`, `mythril_osc/src/lib.rs`)

`n` is `STEREO_VOICES_PER_VECTOR`; `α` stands for one stereo pair of f32
lanes (the granularity at which `split_stereo_cell` exposes every SIMD
vector to `swap_index_cell_unchecked`), and `β` for the whole
`[Oscillator; OSCS_PER_VOICE]` record of one stereo voice (swapped as one
array element). -/

@[ext]
structure GenSm (α : Type) (n : Nat) where
  current : Fin n → α
  target : Fin n → α

@[ext]
structure LinSm (α : Type) (n : Nat) where
  value : Fin n → α
  increment : Fin n → α

@[ext]
structure WTOscClusterNormParams (α : Type) (n : Nat) where
  level : GenSm α n
  frame : GenSm α n
  numVoices : GenSm α n
  detune : GenSm α n
  pan : GenSm α n
  transpose : GenSm α n
  stereo : GenSm α n
  detuneRange : GenSm α n
  random : GenSm α n
  phaseDelta : Fin n → α

@[ext]
structure WTOscVoiceCluster (α β : Type) (n : Nat) where
  activeVoiceMask : Nat
  voices : Fin n → β
  normalWeights : LinSm α n
  flippedWeights : LinSm α n

@[ext]
structure WTOscState (α β : Type) (K n : Nat) where
  clusters : Fin K → WTOscVoiceCluster α β n
  params : Fin K → WTOscClusterNormParams α n

/-- Models `swap_index_cell_unchecked(this, from, other, to)` swaps the cell
`this[to]` with the cell `other[from]` (note the crossed indices in the
source).  Viewing all clusters' copies of one per-lane channel as one
function on `(cluster, stereo-lane)` addresses, the call is the transposition
of two addresses `a` and `b`; phrasing it on the whole channel handles the
aliasing case `this = other` exactly as `Cell::swap` does. -/
def chanSwap {K n : Nat} {γ : Type} (a b : Fin K × Fin n)
    (f : Fin K × Fin n → γ) : Fin K × Fin n → γ :=
  fun p => if p = a then f b else if p = b then f a else f p

/-- Models `permute_smoother_values`: swap the `current` and `target` cells of a
`GenericSmoother` channel between addresses `a` and `b`. -/
def swapGenSm {K n : Nat} {α : Type} (get : Fin K → GenSm α n)
    (a b : Fin K × Fin n) : Fin K → GenSm α n :=
  fun c =>
    { current := fun v => chanSwap a b (fun p => (get p.1).current p.2) (c, v)
      target := fun v => chanSwap a b (fun p => (get p.1).target p.2) (c, v) }

/-- The two `swap_index_cell_unchecked` calls on a `LinearSmoother`'s `value`
and `increment` cells in `WTOscVoiceCluster::move_state_unchecked`. -/
def swapLinSm {K n : Nat} {α : Type} (get : Fin K → LinSm α n)
    (a b : Fin K × Fin n) : Fin K → LinSm α n :=
  fun c =>
    { value := fun v => chanSwap a b (fun p => (get p.1).value p.2) (c, v)
      increment := fun v => chanSwap a b (fun p => (get p.1).increment p.2) (c, v) }

/-- Models `WTOscClusterNormParams::move_state_unchecked`: permute the nine smoother
channels and the base phase-delta between addresses `a` and `b`. -/
def paramsMoveState {K n : Nat} {α : Type}
    (ps : Fin K → WTOscClusterNormParams α n) (a b : Fin K × Fin n) :
    Fin K → WTOscClusterNormParams α n :=
  fun c =>
    { level := swapGenSm (fun k => (ps k).level) a b c
      frame := swapGenSm (fun k => (ps k).frame) a b c
      numVoices := swapGenSm (fun k => (ps k).numVoices) a b c
      detune := swapGenSm (fun k => (ps k).detune) a b c
      pan := swapGenSm (fun k => (ps k).pan) a b c
      transpose := swapGenSm (fun k => (ps k).transpose) a b c
      stereo := swapGenSm (fun k => (ps k).stereo) a b c
      detuneRange := swapGenSm (fun k => (ps k).detuneRange) a b c
      random := swapGenSm (fun k => (ps k).random) a b c
      phaseDelta := fun v => chanSwap a b (fun p => (ps p.1).phaseDelta p.2) (c, v) }

/-- Models `WTOscVoiceCluster::move_state_unchecked`: swap the two weight smoothers
(value and increment cells) and the whole per-voice oscillator record between
addresses `a` and `b`; the active-voice bitmask is not touched. -/
def clustersMoveState {K n : Nat} {α β : Type}
    (cs : Fin K → WTOscVoiceCluster α β n) (a b : Fin K × Fin n) :
    Fin K → WTOscVoiceCluster α β n :=
  fun c =>
    { activeVoiceMask := (cs c).activeVoiceMask
      voices := fun v => chanSwap a b (fun p => (cs p.1).voices p.2) (c, v)
      normalWeights := swapLinSm (fun k => (cs k).normalWeights) a b c
      flippedWeights := swapLinSm (fun k => (cs k).flippedWeights) a b c }

/-- Models `WTOsc::move_state((from_cluster, from_voice), (to_cluster, to_voice))`:
because `swap_index_cell_unchecked(this, from, other, to)` indexes `this`
(the `from_cluster` record) with `to` and `other` (the `to_cluster` record)
with `from`, the two swapped addresses are `(from_cluster, to_voice)` and
`(to_cluster, from_voice)`.  Out-of-bounds voice indices, on which the source
panics, are excluded by the `Fin` types. -/
def moveState {K n : Nat} {α β : Type} (s : WTOscState α β K n)
    (src dst : Fin K × Fin n) : WTOscState α β K n :=
  { clusters := clustersMoveState s.clusters (src.1, dst.2) (dst.1, src.2)
    params := paramsMoveState s.params (src.1, dst.2) (dst.1, src.2) }

theorem chanSwap_invol {K n : Nat} {γ : Type} (a b : Fin K × Fin n)
    (f : Fin K × Fin n → γ) : chanSwap b a (chanSwap a b f) = f := by
  funext p
  by_cases hpb : p = b
  · subst hpb
    simp [chanSwap]
  · by_cases hpa : p = a
    · have hba : ¬b = a := fun h => hpb (hpa.trans h.symm)
      have hab : ¬a = b := fun h => hba h.symm
      simp [chanSwap, hpa, hpb, hba, hab]
    · simp [chanSwap, hpa, hpb]

theorem swapGenSm_invol {K n : Nat} {α : Type} (get : Fin K → GenSm α n)
    (a b : Fin K × Fin n) : swapGenSm (swapGenSm get a b) b a = get := by
  funext c
  have hc := chanSwap_invol a b (fun q => (get q.1).current q.2)
  have ht := chanSwap_invol a b (fun q => (get q.1).target q.2)
  refine GenSm.ext ?_ ?_
  · funext v
    exact congrFun hc (c, v)
  · funext v
    exact congrFun ht (c, v)

theorem swapLinSm_invol {K n : Nat} {α : Type} (get : Fin K → LinSm α n)
    (a b : Fin K × Fin n) : swapLinSm (swapLinSm get a b) b a = get := by
  funext c
  have hv := chanSwap_invol a b (fun q => (get q.1).value q.2)
  have hi := chanSwap_invol a b (fun q => (get q.1).increment q.2)
  refine LinSm.ext ?_ ?_
  · funext v
    exact congrFun hv (c, v)
  · funext v
    exact congrFun hi (c, v)

theorem paramsMoveState_invol {K n : Nat} {α : Type}
    (ps : Fin K → WTOscClusterNormParams α n) (a b : Fin K × Fin n) :
    paramsMoveState (paramsMoveState ps a b) b a = ps := by
  funext c
  refine WTOscClusterNormParams.ext ?_ ?_ ?_ ?_ ?_ ?_ ?_ ?_ ?_ ?_
  · exact congrFun (swapGenSm_invol (fun k => (ps k).level) a b) c
  · exact congrFun (swapGenSm_invol (fun k => (ps k).frame) a b) c
  · exact congrFun (swapGenSm_invol (fun k => (ps k).numVoices) a b) c
  · exact congrFun (swapGenSm_invol (fun k => (ps k).detune) a b) c
  · exact congrFun (swapGenSm_invol (fun k => (ps k).pan) a b) c
  · exact congrFun (swapGenSm_invol (fun k => (ps k).transpose) a b) c
  · exact congrFun (swapGenSm_invol (fun k => (ps k).stereo) a b) c
  · exact congrFun (swapGenSm_invol (fun k => (ps k).detuneRange) a b) c
  · exact congrFun (swapGenSm_invol (fun k => (ps k).random) a b) c
  · funext v
    exact congrFun (chanSwap_invol a b (fun q => (ps q.1).phaseDelta q.2)) (c, v)

theorem clustersMoveState_invol {K n : Nat} {α β : Type}
    (cs : Fin K → WTOscVoiceCluster α β n) (a b : Fin K × Fin n) :
    clustersMoveState (clustersMoveState cs a b) b a = cs := by
  funext c
  refine WTOscVoiceCluster.ext ?_ ?_ ?_ ?_
  · rfl
  · funext v
    exact congrFun (chanSwap_invol a b (fun q => (cs q.1).voices q.2)) (c, v)
  · exact congrFun (swapLinSm_invol (fun k => (cs k).normalWeights) a b) c
  · exact congrFun (swapLinSm_invol (fun k => (cs k).flippedWeights) a b) c

/-- C6: for all in-bounds lane coordinates `x` and `y`,
`move_state(x, y); move_state(y, x)` restores every cluster's oscillator
state and every parameter record to its initial value — the swap is its own
inverse.  (This holds even though each individual `move_state` swaps the
crossed pair of addresses, because the second call transposes exactly the
same two addresses.) -/
theorem c6_move_state_involution {K n : Nat} {α β : Type}
    (s : WTOscState α β K n) (x y : Fin K × Fin n) :
    moveState (moveState s x y) y x = s := by
  refine WTOscState.ext ?_ ?_
  · exact clustersMoveState_invol s.clusters (x.1, y.2) (y.1, x.2)
  · exact paramsMoveState_invol s.params (x.1, y.2) (y.1, x.2)

/-- A generic smoother holding distinct marker values in every lane (base
offset `m`). -/
def c5GenSm (m : Nat) : GenSm Nat 2 := ⟨fun v => m + v.val, fun v => m + 4 + v.val⟩

/-- A linear smoother holding distinct marker values in every lane. -/
def c5LinSm (m : Nat) : LinSm Nat 2 := ⟨fun v => m + v.val, fun v => m + 4 + v.val⟩

/-- Parameter records for two clusters, every per-lane cell distinct. -/
def c5Params (c : Fin 2) : WTOscClusterNormParams Nat 2 :=
  { level := c5GenSm (1000 * c.val)
    frame := c5GenSm (1000 * c.val + 10)
    numVoices := c5GenSm (1000 * c.val + 20)
    detune := c5GenSm (1000 * c.val + 30)
    pan := c5GenSm (1000 * c.val + 40)
    transpose := c5GenSm (1000 * c.val + 50)
    stereo := c5GenSm (1000 * c.val + 60)
    detuneRange := c5GenSm (1000 * c.val + 70)
    random := c5GenSm (1000 * c.val + 80)
    phaseDelta := fun v => 1000 * c.val + 90 + v.val }

/-- Voice clusters for two clusters, every per-lane cell distinct. -/
def c5Cluster (c : Fin 2) : WTOscVoiceCluster Nat Nat 2 :=
  { activeVoiceMask := c.val
    voices := fun v => 1000 * c.val + 200 + v.val
    normalWeights := c5LinSm (1000 * c.val + 210)
    flippedWeights := c5LinSm (1000 * c.val + 220) }

/-- Two clusters of two stereo voices each (`FLOATS_PER_VECTOR = 4`), all
per-lane state pairwise distinct. -/
def c5State : WTOscState Nat Nat 2 2 := ⟨c5Cluster, c5Params⟩

/-- C5: code bug — after `move_state((0,0),(1,1))` on two clusters holding
distinct values, it is stereo voice 1 of cluster 0 and stereo voice 0 of
cluster 1 that have exchanged their per-lane state, not (as the claim and the
spec state) voice 0 of cluster 0 and voice 1 of cluster 1:
`swap_index_cell_unchecked(this, from, other, to)` swaps `this[to]` with
`other[from]`, transposing its index arguments.  Concretely: cluster 0 voice
0 is unchanged (and differs from cluster 1 voice 1's original value it should
have received), while cluster 0 voice 1 now holds cluster 1 voice 0's state
and vice versa — for the smoother channels, the base phase-delta and the
oscillator records alike. -/
theorem c5_move_state_swaps_crossed_lanes :
    ((moveState c5State (0, 0) (1, 1)).params 0).level.current 0 =
        (c5Params 0).level.current 0 ∧
    ((moveState c5State (0, 0) (1, 1)).params 0).level.current 0 ≠
        (c5Params 1).level.current 1 ∧
    ((moveState c5State (0, 0) (1, 1)).params 0).level.current 1 =
        (c5Params 1).level.current 0 ∧
    ((moveState c5State (0, 0) (1, 1)).params 1).level.current 0 =
        (c5Params 0).level.current 1 ∧
    ((moveState c5State (0, 0) (1, 1)).params 0).phaseDelta 1 =
        (c5Params 1).phaseDelta 0 ∧
    ((moveState c5State (0, 0) (1, 1)).clusters 0).voices 1 =
        (c5Cluster 1).voices 0 ∧
    ((moveState c5State (0, 0) (1, 1)).clusters 0).voices 0 =
        (c5Cluster 0).voices 0 ∧
    ((moveState c5State (0, 0) (1, 1)).clusters 1).normalWeights.value 0 =
        (c5Cluster 0).normalWeights.value 1 := by
  decide

/-! ## `WTOscVoiceCluster::active_voices` (`mythril_osc/src/cluster.rs`) -/

/-- Models `u8::trailing_zeros`, probing at most 8 bits (so `u8tz 0 = 8`). -/
def u8tzGo : Nat → Nat → Nat
  | 0, _ => 0
  | f + 1, m => if m % 2 = 1 then 0 else u8tzGo f (m / 2) + 1

def u8tz (m : Nat) : Nat := u8tzGo 8 m

/-- The `iter::from_fn` closure of `active_voices`:
`n = mask.trailing_zeros()`; `i += n`; `mask >>= n`; `voices.nth(n)` (which
skips `n` voices and consumes one more), yielding `(i, voice)` until `nth`
returns `None`.  Note the source never clears or shifts past the bit it just
found.  One fuel unit per yielded item; since every yield consumes at least
one voice, `numVoices + 1` units make the model exact. -/
def activeVoicesGo : Nat → Nat → Nat → List Nat → List (Nat × Nat)
  | 0, _, _, _ => []
  | fuel + 1, mask, i, voices =>
    match voices.get? (u8tz mask) with
    | none => []
    | some v =>
      (i + u8tz mask, v) ::
        activeVoicesGo fuel (mask >>> u8tz mask) (i + u8tz mask)
          (voices.drop (u8tz mask + 1))

/-- Models `active_voices` over a cluster of `numVoices` stereo voices (identified
by their positions `0, …, numVoices − 1`) with active-voice bitmask `mask`:
the full list of `(voice index, voice)` pairs the iterator yields. -/
def activeVoices (mask numVoices : Nat) : List (Nat × Nat) :=
  activeVoicesGo (numVoices + 1) mask 0 (List.range numVoices)

/-- C7: code bug — the voice iteration does not visit exactly the set-bit
voices.  Because the closure never shifts past the bit it found
(`mask >>= n` with `n = trailing_zeros` leaves bit 0 set), once a set bit is
found every remaining voice is yielded, all carrying the stuck index of that
first set bit.  With mask `0b0101` over four stereo voices the iterator
yields voices 0, 1, 2 and 3 (all with index 0) instead of voices 0 and 2 with
indices 0 and 2; with mask `0b01` over two voices it yields the cleared
voice 1 as well. -/
theorem c7_active_voices_visits_cleared_voices :
    activeVoices 5 4 = [(0, 0), (0, 1), (0, 2), (0, 3)] ∧
    activeVoices 1 2 = [(0, 0), (0, 1)] ∧
    activeVoices 2 2 = [(1, 1)] := by
  decide

/-! ## The `num_voices` derivation
(`mythril_osc/src/cluster.rs`, `mythril_osc/src/voice.rs`)

The f32 lane arithmetic is idealized over `ℚ`. -/

/-- Models `WTOscClusterNormParams::num_voices_from_norm`:
`norm_val.mul_add(splat(15.998), splat(1.001))`. -/
def numVoicesFromNorm (x : ℚ) : ℚ := x * 15.998 + 1.001

/-- The `f32 → u32` lane cast in `VoiceParams::new_unchecked` (`.cast()`),
which truncates toward zero (saturating at 0 for negative values). -/
def castF32U32 (x : ℚ) : Nat := (⌊x⌋).toNat

/-- The per-voice unison count the oscillator actually uses. -/
def numVoicesCount (x : ℚ) : Nat := castF32U32 (numVoicesFromNorm x)

/-- C8 (amended): for every normalized `num_voices` parameter value in
`[0, 1]`, the per-voice unison count equals `⌊1.001 + 15.998 · norm⌋` — the
f32→u32 cast truncates, it does not round — and always lies in `[1, 16]`. -/
theorem c8_num_voices_truncates_and_is_in_range (x : ℚ) (h0 : 0 ≤ x) (h1 : x ≤ 1) :
    numVoicesCount x = (⌊(1.001 : ℚ) + 15.998 * x⌋).toNat ∧
    1 ≤ numVoicesCount x ∧ numVoicesCount x ≤ 16 := by
  have hform : numVoicesFromNorm x = (1.001 : ℚ) + 15.998 * x := by
    unfold numVoicesFromNorm
    ring
  have hlo : (1 : ℚ) ≤ numVoicesFromNorm x := by
    unfold numVoicesFromNorm
    nlinarith
  have hhi : numVoicesFromNorm x < 17 := by
    unfold numVoicesFromNorm
    nlinarith
  refine ⟨by rw [numVoicesCount, castF32U32, hform], ?_, ?_⟩
  · have hfl : (1 : ℤ) ≤ ⌊numVoicesFromNorm x⌋ := Int.le_floor.mpr (by exact_mod_cast hlo)
    unfold numVoicesCount castF32U32
    omega
  · have hfl : ⌊numVoicesFromNorm x⌋ < 17 := Int.floor_lt.mpr (by exact_mod_cast hhi)
    unfold numVoicesCount castF32U32
    omega

/-- C8 witness: at `norm = 1/2` the formula value is exactly 9 and the count
is 9 ∈ [1, 16]. -/
theorem c8_num_voices_witness :
    numVoicesCount (1 / 2) = (⌊(1.001 : ℚ) + 15.998 * (1 / 2)⌋).toNat ∧
    1 ≤ numVoicesCount (1 / 2) ∧ numVoicesCount (1 / 2) ≤ 16 :=
  c8_num_voices_truncates_and_is_in_range (1 / 2) (by norm_num) (by norm_num)

/-- C8 counterexample: at `num_voices_norm = 0.475` the formula value is
`8.60005`; the code's truncating cast yields 8, while the claimed
`round(1.001 + 15.998 · norm)` is 9. -/
theorem c8_round_counterexample :
    numVoicesCount (19 / 40) = 8 ∧ round ((1.001 : ℚ) + 15.998 * (19 / 40)) = 9 := by
  constructor
  · norm_num [numVoicesCount, castF32U32, numVoicesFromNorm, Int.floor_eq_iff]
    rfl
  · norm_num [round_eq, Int.floor_eq_iff]

/-! ## Wavetable resampler index computation
(`mythril_osc/src/wavetable.rs`, `BandLimitedWaveTables::get_resample_data`)

Machine `u32` values are `Nat` with explicit `% 2 ^ 32` wherever the source
arithmetic can wrap. -/

def U32LIM : Nat := 4294967296

def NUM_OCTAVES : Nat := 11

def FRAME_LEN : Nat := 2048

def NUM_MIPMAPS : Nat := 12

def FRACT_BITS : Nat := 21

def PHASE_MASK : Nat := 2047

/-- Bit length of a `Nat` probing at most `fuel` bits. -/
def bitLenGo : Nat → Nat → Nat
  | 0, _ => 0
  | f + 1, m => if m = 0 then 0 else bitLenGo f (m / 2) + 1

/-- Models `u32::leading_zeros`: 32 minus the bit length. -/
def u32clz (m : Nat) : Nat := 32 - bitLenGo 32 m

/-- Models `table_start = (octaves + frame · NUM_MIPMAPS) << NUM_OCTAVES` of
`get_resample_data`, with `octaves = min(leading_zeros(phase_delta),
NUM_OCTAVES)`; all u32 arithmetic carries an explicit `% 2 ^ 32`. -/
def tableStart (frame phaseDelta : Nat) : Nat :=
  (((min (u32clz phaseDelta) NUM_OCTAVES + frame * NUM_MIPMAPS % U32LIM) % U32LIM)
      <<< NUM_OCTAVES) % U32LIM

/-- Models `phase_a = phase >> FRACT_BITS`. -/
def phaseA (phase : Nat) : Nat := phase >>> FRACT_BITS

/-- Models `phase_b = (phase_a + 1) & PHASE_MASK`. -/
def phaseB (phase : Nat) : Nat := (phaseA phase + 1) &&& PHASE_MASK

/-- The two per-lane gather indices (`table_start + phase_a` and
`table_start + phase_b`) computed by `get_resample_data` and fed by
`resample_select` to the unchecked gathers. -/
def getResampleIdx (phase frame phaseDelta : Nat) : Nat × Nat :=
  ((tableStart frame phaseDelta + phaseA phase) % U32LIM,
    (tableStart frame phaseDelta + phaseB phase) % U32LIM)

theorem tableStart_le (frame phaseDelta nf : Nat) (hf : frame < nf)
    (hl : nf * NUM_MIPMAPS * FRAME_LEN ≤ U32LIM) :
    tableStart frame phaseDelta ≤ nf * NUM_MIPMAPS * FRAME_LEN - FRAME_LEN := by
  unfold tableStart
  rw [Nat.shiftLeft_eq]
  have hoct : min (u32clz phaseDelta) NUM_OCTAVES ≤ 11 := min_le_right _ _
  generalize hoc : min (u32clz phaseDelta) NUM_OCTAVES = oct at hoct ⊢
  unfold NUM_MIPMAPS FRAME_LEN U32LIM at hl
  show (oct + frame * 12 % 4294967296) % 4294967296 * 2 ^ 11 % 4294967296 ≤
    nf * 12 * 2048 - 2048
  rw [show (2 : Nat) ^ 11 = 2048 from rfl]
  omega

theorem phaseA_lt (phase : Nat) (hp : phase < U32LIM) : phaseA phase < FRAME_LEN := by
  unfold phaseA
  rw [Nat.shiftRight_eq_div_pow]
  unfold U32LIM at hp
  show phase / 2 ^ 21 < 2048
  rw [show (2 : Nat) ^ 21 = 2097152 from rfl]
  omega

theorem phaseB_le (phase : Nat) : phaseB phase ≤ PHASE_MASK := Nat.and_le_right

/-- C9: for every `u32` phase, phase-delta and frame such that the lane's
frame is strictly below `num_frames` and the full table
`num_frames · NUM_MIPMAPS · FRAME_LEN` fits in `u32`, both gather indices the
resampler computes for that lane are strictly below
`num_frames · NUM_MIPMAPS · FRAME_LEN` — the unchecked SIMD gathers of
`resample_select` stay inside the flat table for every mask-enabled lane. -/
theorem c9_resample_indices_in_bounds (phase frame phaseDelta nf : Nat)
    (hp : phase < U32LIM) (hf : frame < nf)
    (hl : nf * NUM_MIPMAPS * FRAME_LEN ≤ U32LIM) :
    (getResampleIdx phase frame phaseDelta).1 < nf * NUM_MIPMAPS * FRAME_LEN ∧
    (getResampleIdx phase frame phaseDelta).2 < nf * NUM_MIPMAPS * FRAME_LEN := by
  have h1 := tableStart_le frame phaseDelta nf hf hl
  have h2 := phaseA_lt phase hp
  have h3 := phaseB_le phase
  unfold getResampleIdx
  unfold NUM_MIPMAPS FRAME_LEN U32LIM PHASE_MASK at *
  constructor
  · show (tableStart frame phaseDelta + phaseA phase) % 4294967296 < nf * 12 * 2048
    omega
  · show (tableStart frame phaseDelta + phaseB phase) % 4294967296 < nf * 12 * 2048
    omega

/-! ## `AudioGraphIO::remove_processor`
(`polygraph/src/audio_graph/io.rs`) -/

inductive NodeIdx where
  | global
  | processor (i : Nat)
deriving DecidableEq

/-- Models `Ports`: a map from node index to the set of port indices on that node. -/
structure PortsIo where
  conns : List (NodeIdx × List Nat)
deriving DecidableEq

/-- Models `NodeIO`: one `Ports` per port, plus the opposite-port count. -/
structure NodeIo where
  ports : List PortsIo
  numOppositePorts : Nat
deriving DecidableEq

/-- Models `AudioGraphIO`: a vector of optional processors plus the global node. -/
structure AudioGraphIo where
  processors : List (Option NodeIo)
  global : NodeIo
deriving DecidableEq

/-- Models `AudioGraphIO::get_node`:
`self.processors.get(i).and_then(Option::as_ref)`. -/
def AudioGraphIo.getNode (g : AudioGraphIo) : NodeIdx → Option NodeIo
  | .global => some g.global
  | .processor i => (g.processors.get? i).bind id

/-- Models `Ports::remove_all_ports_to_node` (`HashMap::remove` of the entry). -/
def removeAllPortsToNode (p : PortsIo) (idx : NodeIdx) : PortsIo :=
  ⟨p.conns.filter (fun e => e.1 ≠ idx)⟩

/-- Models `AudioGraphIO::remove_processor`: `Vec::remove(index)` — which panics
(`none`) when `index` is out of bounds and SHIFTS every later processor down
one slot — followed, when the removed slot held a processor, by dropping the
remaining processors' edges pointing to `Processor(index)`. -/
def removeProcessor (g : AudioGraphIo) (index : Nat) : Option (Bool × AudioGraphIo) :=
  if index < g.processors.length then
    match g.processors.get? index with
    | none => none
    | some none => some (false, ⟨g.processors.eraseIdx index, g.global⟩)
    | some (some _) =>
      some (true,
        ⟨(g.processors.eraseIdx index).map
            (fun mp => mp.map (fun io =>
              ⟨io.ports.map (fun p => removeAllPortsToNode p (.processor index)),
                io.numOppositePorts⟩)),
          g.global⟩)
  else none

/-- Processor 0 of the C10 graph: one port, connected to port 0 of
processor 1. -/
def c10NodeA : NodeIo := ⟨[⟨[(.processor 1, [0])]⟩], 0⟩

/-- Processor 1 of the C10 graph: one port, no connections. -/
def c10NodeB : NodeIo := ⟨[⟨[]⟩], 1⟩

/-- A graph with processors 0 and 1. -/
def c10Graph : AudioGraphIo := ⟨[some c10NodeA, some c10NodeB], ⟨[], 0⟩⟩

/-- C10: code bug — `remove_processor(0)` uses `Vec::remove`, which shifts
every later processor down one slot: node 1 (whose state the removal should
not touch) afterwards no longer exists under its identity `Processor(1)` and
is found at `Processor(0)` instead, so stored edges naming `Processor(i)` for
`i > 0` now dangle or point at the wrong node.  (`insert_processor` fills
vacated `None` slots, showing removal was meant to vacate the slot, not shift
the vector.) -/
theorem c10_remove_processor_shifts_indices :
    c10Graph.getNode (.processor 1) = some c10NodeB ∧
    (removeProcessor c10Graph 0).map (fun r => r.2.getNode (.processor 1)) =
      some none ∧
    (removeProcessor c10Graph 0).map (fun r => r.2.getNode (.processor 0)) =
      some (some c10NodeB) ∧
    (removeProcessor c10Graph 0).map (fun r => r.1) = some true := by
  decide

/-- C9 witness: a concrete lane (`phase = 3000000000`, `frame = 2`,
`phase_delta = 1`) of a 3-frame table: both gather indices are within the
`3 · 12 · 2048` flat table. -/
theorem c9_resample_indices_in_bounds_witness :
    (getResampleIdx 3000000000 2 1).1 < 3 * NUM_MIPMAPS * FRAME_LEN ∧
    (getResampleIdx 3000000000 2 1).2 < 3 * NUM_MIPMAPS * FRAME_LEN :=
  c9_resample_indices_in_bounds 3000000000 2 1 3 (by decide) (by decide) (by decide)
